import Mathlib

/-!
Shallow embedding of the truncated power-series recurrence solvers of
`dev/verification/sympy_crosscheck_all.py`:

* `series_first_order`  — `y' = F(x, y)`
* `series_nth_order`    — `y^(m) = G(x, y, y', ..., y^(m-1))`
* `series_system_2x2`   — `f' = F(x, f, g)`, `g' = G(x, f, g)`

A truncated power series in the local variable `t` (`x = x0 + t`) is a
dense list of exact rational coefficients.  Expressions are a tagged AST
over the atoms the scripts substitute for; evaluation under a
substitution environment is `Option`-valued: an atom the substitution
dictionary does not bind leaves a foreign symbol in the result, so the
extracted coefficient is not a rational value (`none`).

Rational arithmetic is written through the kernel-reducible wrappers
`qadd`, `qmul`, `qneg`, `qdiv`, `qofNat` (the standard `Rat` operations
are `@[irreducible]`); the lemmas `qadd_eq` … `qdiv_eq` identify them
with the field operations of `ℚ`, so every statement below can be read
with ordinary rational arithmetic.
-/

/-- Rational addition through `mkRat`; equals `a + b` by `qadd_eq`. -/
def qadd (a b : ℚ) : ℚ := mkRat (a.num * b.den + b.num * a.den) (a.den * b.den)

/-- Rational multiplication through `mkRat`; equals `a * b` by `qmul_eq`. -/
def qmul (a b : ℚ) : ℚ := mkRat (a.num * b.num) (a.den * b.den)

/-- Rational negation; equals `-a` by `qneg_eq`. -/
def qneg (a : ℚ) : ℚ := Rat.neg a

/-- Rational division through `Rat.divInt`; equals `a / b` by `qdiv_eq`. -/
def qdiv (a b : ℚ) : ℚ := Rat.divInt (a.num * b.den) (a.den * b.num)

/-- The rational value of a natural number; equals `(n : ℚ)` by `qofNat_eq`. -/
def qofNat (n : ℕ) : ℚ := mkRat n 1

theorem qadd_eq (a b : ℚ) : qadd a b = a + b := by
  have ha : ((a.den : ℚ)) ≠ 0 := by exact_mod_cast a.den_ne_zero
  have hb : ((b.den : ℚ)) ≠ 0 := by exact_mod_cast b.den_ne_zero
  unfold qadd
  rw [Rat.mkRat_eq_divInt, Rat.divInt_eq_div]
  push_cast
  conv_rhs => rw [← Rat.num_div_den a, ← Rat.num_div_den b]
  field_simp

theorem qmul_eq (a b : ℚ) : qmul a b = a * b := by
  have ha : ((a.den : ℚ)) ≠ 0 := by exact_mod_cast a.den_ne_zero
  have hb : ((b.den : ℚ)) ≠ 0 := by exact_mod_cast b.den_ne_zero
  unfold qmul
  rw [Rat.mkRat_eq_divInt, Rat.divInt_eq_div]
  push_cast
  conv_rhs => rw [← Rat.num_div_den a, ← Rat.num_div_den b]
  field_simp

theorem qneg_eq (a : ℚ) : qneg a = -a := rfl

theorem qofNat_eq (n : ℕ) : qofNat n = (n : ℚ) := by
  unfold qofNat
  rw [Rat.mkRat_eq_divInt, Rat.divInt_eq_div]
  push_cast
  simp

theorem qdiv_eq (a b : ℚ) : qdiv a b = a / b := by
  unfold qdiv
  rcases eq_or_ne b 0 with rfl | hb
  · simp [Rat.divInt_eq_div]
  · have hbn : (b.num : ℚ) ≠ 0 := by exact_mod_cast Rat.num_ne_zero.mpr hb
    have ha : ((a.den : ℚ)) ≠ 0 := by exact_mod_cast a.den_ne_zero
    have hbd : ((b.den : ℚ)) ≠ 0 := by exact_mod_cast b.den_ne_zero
    rw [Rat.divInt_eq_div]
    push_cast
    conv_rhs => rw [← Rat.num_div_den a, ← Rat.num_div_den b]
    field_simp

/-- Dense polynomial in the local variable `t`: entry `k` is the
coefficient of `t^k`.  Degrees beyond the list are zero. -/
abbrev TPS := List ℚ

namespace TPS

/-- Sympy's `p.coeff(t, n)` for a polynomial `p`: the coefficient of
`t^n`, `0` beyond the stored length. -/
def coeff (p : TPS) (n : ℕ) : ℚ := p.getD n 0

/-- Pointwise polynomial addition. -/
def add : TPS → TPS → TPS
  | [], q => q
  | p, [] => p
  | a :: p, b :: q => (qadd a b) :: add p q

/-- Polynomial negation. -/
def neg (p : TPS) : TPS := p.map (fun c => qneg c)

/-- Multiplication by a scalar. -/
def scale (c : ℚ) (p : TPS) : TPS := p.map (fun a => qmul c a)

/-- Polynomial multiplication (convolution). -/
def mul : TPS → TPS → TPS
  | [], _ => []
  | a :: p, q => add (scale a q) ((0 : ℚ) :: mul p q)

/-- Natural power of a polynomial. -/
def npow (p : TPS) : ℕ → TPS
  | 0 => [1]
  | n+1 => mul p (npow p n)

/-- Helper for `deriv`: coefficients `i * a_i` starting at index `i`. -/
def derivAux : ℕ → List ℚ → TPS
  | _, [] => []
  | i, a :: p => (qmul (qofNat i) a) :: derivAux (i+1) p

/-- `sp.diff(p, t)` for a polynomial `p` in `t`. -/
def deriv (p : TPS) : TPS := derivAux 1 (p.drop 1)

/-- `sp.diff(p, t, k)`: the `k`-fold derivative. -/
def iterDeriv : ℕ → TPS → TPS
  | 0, p => p
  | k+1, p => deriv (iterDeriv k p)

/-- `sp.series(p, t, 0, k).removeO()` for a polynomial `p`: drop every
term of degree `≥ k`. -/
def truncate (k : ℕ) (p : TPS) : TPS := p.take k

end TPS

/-- Expression AST over the atoms the scripts substitute for:
the independent variable `x`, the applied unknown `y(x)`
(`sp.Function("y")(x)`), the bare symbol `y` (`sp.Symbol("y")`), the
derivative symbol `Derivative(y(x), x, k)`, and the applied system
unknowns `f(x)`, `g(x)`; combined by sums, products, negation and
natural powers. -/
inductive Expr where
  | const : ℚ → Expr
  | X : Expr
  | yApp : Expr
  | ySym : Expr
  | yDeriv : ℕ → Expr
  | fApp : Expr
  | gApp : Expr
  | add : Expr → Expr → Expr
  | mul : Expr → Expr → Expr
  | neg : Expr → Expr
  | pow : Expr → ℕ → Expr
deriving DecidableEq, Repr

/-- A substitution environment: what the `subs` dictionary binds each
atom to.  `none` means the dictionary has no key for that atom. -/
structure Env where
  xP : TPS
  yAppP : Option TPS := none
  ySymP : Option TPS := none
  yDerivP : ℕ → Option TPS := fun _ => none
  fP : Option TPS := none
  gP : Option TPS := none

/-- `expr.subs(env)` followed by expansion: the value of the expression
as a polynomial in `t`, or `none` when some atom is unbound (the result
would not be a polynomial in `t` with rational coefficients). -/
def evalE (env : Env) : Expr → Option TPS
  | .const c => some [c]
  | .X => some env.xP
  | .yApp => env.yAppP
  | .ySym => env.ySymP
  | .yDeriv k => env.yDerivP k
  | .fApp => env.fP
  | .gApp => env.gP
  | .add e1 e2 => do
      let p ← evalE env e1
      let q ← evalE env e2
      return TPS.add p q
  | .mul e1 e2 => do
      let p ← evalE env e1
      let q ← evalE env e2
      return TPS.mul p q
  | .neg e => do
      let p ← evalE env e
      return TPS.neg p
  | .pow e n => do
      let p ← evalE env e
      return TPS.npow p n

/-- The substitution map of `series_first_order`:
`{x: x0 + t, sp.Function("y")(x): Yn, sp.Symbol("y"): Yn}`. -/
def foEnv (x0 : ℚ) (Yn : TPS) : Env :=
  { xP := [x0, 1], yAppP := some Yn, ySymP := some Yn }

/-- One iteration of the `series_first_order` loop: from the known
coefficients `a_0 .. a_n` (the list `a`, of length `n+1`) compute
`a_{n+1} = c_n / (n+1)` and append it. -/
def foStep (F : Expr) (x0 : ℚ) (a : TPS) (n : ℕ) : Option TPS := do
  let Yn := a.take (n+1)
  let Fsub ← evalE (foEnv x0 Yn) F
  let cn := TPS.coeff (TPS.truncate (n+1) Fsub) n
  return a ++ [qdiv cn (qofNat (n+1))]

/-- The `series_first_order` loop after `s` of its iterations, starting
from `a = [y0]`. -/
def foIter (F : Expr) (y0 x0 : ℚ) : ℕ → Option TPS
  | 0 => some [y0]
  | n+1 => do
      let a ← foIter F y0 x0 n
      foStep F x0 a n

/-- `series_first_order(F, y0, order, x0)`: the coefficient list
`a_0 .. a_order` of the series in `t = x - x0`. -/
def series_first_order (F : Expr) (y0 : ℚ) (order : ℕ) (x0 : ℚ) : Option TPS :=
  foIter F y0 x0 order

/-- One assignment `a[k] = val` of the initial-condition loop of
`series_nth_order`; an out-of-range index raises `IndexError`,
modelled as `none`. -/
def icsSet (a : TPS) (kv : ℕ × ℚ) : Option TPS :=
  if kv.1 < a.length then some (a.set kv.1 kv.2) else none

/-- `a = [sp.S(0)] * (order + 1); for k, val in ics.items(): a[k] = val`. -/
def icsInit (order : ℕ) (ics : List (ℕ × ℚ)) : Option TPS :=
  ics.foldlM icsSet (List.replicate (order+1) (0 : ℚ))

/-- The substitution map built at one step of `series_nth_order` with
current truncated series `Y`: `{x: x0+t, y(x): Y, Symbol("y"): Y}`
extended, for `k = 1 .. m-1`, with
`subs_map[sp.Function("y")(x).diff(x, k-1)] = derivs[k-1]`.
Hence the derivative symbol `y^(j)` is bound (to the `j`-fold
derivative of `Y`) exactly for `1 ≤ j ≤ m-2`; the `k = 1` entry
re-binds `y(x)` itself to `derivs[0] = Y`, which is the value it
already had. -/
def nthEnv (m : ℕ) (x0 : ℚ) (Y : TPS) : Env :=
  { xP := [x0, 1], yAppP := some Y, ySymP := some Y,
    yDerivP := fun j => if 1 ≤ j ∧ j + 2 ≤ m then some (TPS.iterDeriv j Y) else none }

/-- One iteration of the `series_nth_order` loop (the body for index
`n`): build `Y = Y_upto(n + m - 1)`, substitute, truncate to degree
`n`, extract `c_n` and set `a[n+m] = c_n / ((n+m)!/n!)`. -/
def nthStep (m : ℕ) (G : Expr) (x0 : ℚ) (order : ℕ) (a : TPS) (n : ℕ) : Option TPS := do
  let Y := a.take (min (n + m - 1) order + 1)
  let Gsub ← evalE (nthEnv m x0 Y) G
  let cn := TPS.coeff (TPS.truncate (n+1) Gsub) n
  let factor : ℚ := qdiv (qofNat (Nat.factorial (n + m))) (qofNat (Nat.factorial n))
  return a.set (n + m) (qdiv cn factor)

/-- The `series_nth_order` loop after `s` of its iterations. -/
def nthIter (m : ℕ) (G : Expr) (x0 : ℚ) (order : ℕ) (a : TPS) : ℕ → Option TPS
  | 0 => some a
  | s+1 => do
      let a' ← nthIter m G x0 order a s
      nthStep m G x0 order a' s

/-- `series_nth_order(m, G, ics, order, x0)`: the coefficient list
`a_0 .. a_order` of the series in `t = x - x0`.  The loop runs for
`n in range(order - m + 1)`, i.e. `order + 1 - m` iterations. -/
def series_nth_order (m : ℕ) (G : Expr) (ics : List (ℕ × ℚ)) (order : ℕ) (x0 : ℚ) :
    Option TPS := do
  let a ← icsInit order ics
  nthIter m G x0 order a (order + 1 - m)

/-- The substitution map of `series_system_2x2`:
`{x: x0 + t, sp.Function("f")(x): Fn, sp.Function("g")(x): Gn}`
(the bare symbols `f`, `g` and the scalar unknown `y` are not bound). -/
def sysEnv (x0 : ℚ) (Fn Gn : TPS) : Env :=
  { xP := [x0, 1], fP := some Fn, gP := some Gn }

/-- One iteration of the `series_system_2x2` loop: both right-hand
sides are substituted with the pair of partial series of degree `≤ n`,
then `af_{n+1} = cF / (n+1)` and `ag_{n+1} = cG / (n+1)` are appended. -/
def sysStep (F G : Expr) (x0 : ℚ) (ab : TPS × TPS) (n : ℕ) : Option (TPS × TPS) := do
  let Fn := ab.1.take (n+1)
  let Gn := ab.2.take (n+1)
  let Fsub ← evalE (sysEnv x0 Fn Gn) F
  let Gsub ← evalE (sysEnv x0 Fn Gn) G
  let cF := TPS.coeff (TPS.truncate (n+1) Fsub) n
  let cG := TPS.coeff (TPS.truncate (n+1) Gsub) n
  return (ab.1 ++ [qdiv cF (qofNat (n+1))], ab.2 ++ [qdiv cG (qofNat (n+1))])

/-- The `series_system_2x2` loop after `s` of its iterations, starting
from `([f0], [g0])`. -/
def sysIter (F G : Expr) (f0 g0 x0 : ℚ) : ℕ → Option (TPS × TPS)
  | 0 => some ([f0], [g0])
  | n+1 => do
      let ab ← sysIter F G f0 g0 x0 n
      sysStep F G x0 ab n

/-- `series_system_2x2(F, G, f0, g0, order, x0)`: the pair of
coefficient lists of the two series in `t = x - x0`. -/
def series_system_2x2 (F G : Expr) (f0 g0 : ℚ) (order : ℕ) (x0 : ℚ) :
    Option (TPS × TPS) :=
  sysIter F G f0 g0 x0 order

namespace TPS

theorem coeff_append_lt (a b : TPS) (j : ℕ) (h : j < a.length) :
    coeff (a ++ b) j = coeff a j :=
  List.getD_append _ _ _ _ h

theorem coeff_append_singleton (a : TPS) (c : ℚ) : coeff (a ++ [c]) a.length = c := by
  unfold coeff
  rw [List.getD_eq_getElem?_getD, List.getElem?_append_right (Nat.le_refl _)]
  simp

theorem coeff_take (a : TPS) (k j : ℕ) (h : j < k) : coeff (a.take k) j = coeff a j := by
  unfold coeff
  rw [List.getD_eq_getElem?_getD, List.getD_eq_getElem?_getD, List.getElem?_take,
    if_pos h]

theorem take_all_of_length (a : TPS) (k : ℕ) (h : a.length = k) : a.take k = a := by
  subst h
  exact List.take_length a

theorem take_set_of_le (l : TPS) (i k : ℕ) (v : ℚ) (h : k ≤ i) :
    (l.set i v).take k = l.take k := by
  induction l generalizing i k with
  | nil => simp
  | cons a l ih =>
    cases i with
    | zero =>
      have hk : k = 0 := Nat.le_zero.mp h
      subst hk
      simp
    | succ i =>
      cases k with
      | zero => simp
      | succ k =>
        simp only [List.set, List.take_succ_cons]
        rw [ih _ _ (Nat.le_of_succ_le_succ h)]

theorem coeff_set_self (l : TPS) (i : ℕ) (v : ℚ) (h : i < l.length) :
    coeff (l.set i v) i = v := by
  unfold coeff
  rw [List.getD_eq_getElem?_getD, List.getElem?_set_self (by simpa using h)]
  simp

theorem coeff_set_ne (l : TPS) (i j : ℕ) (v : ℚ) (h : i ≠ j) :
    coeff (l.set i v) j = coeff l j := by
  unfold coeff
  rw [List.getD_eq_getElem?_getD, List.getElem?_set_ne h, ← List.getD_eq_getElem?_getD]

end TPS

theorem foStep_eq (F : Expr) (x0 : ℚ) (a : TPS) (n : ℕ) :
    foStep F x0 a n = (evalE (foEnv x0 (a.take (n+1))) F).map
      (fun p => a ++ [qdiv (TPS.coeff (TPS.truncate (n+1) p) n) (qofNat (n+1))]) := by
  simp only [foStep]
  cases h : evalE (foEnv x0 (a.take (n+1))) F
  · simp [h]
  · simp [h]

theorem foIter_succ (F : Expr) (y0 x0 : ℚ) (n : ℕ) :
    foIter F y0 x0 (n+1) = (foIter F y0 x0 n).bind (fun a => foStep F x0 a n) := rfl

theorem foIter_succ_ex (F : Expr) (y0 x0 : ℚ) (n : ℕ) (b : TPS)
    (h : foIter F y0 x0 (n+1) = some b) :
    ∃ a p, foIter F y0 x0 n = some a ∧
      evalE (foEnv x0 (a.take (n+1))) F = some p ∧
      b = a ++ [qdiv (TPS.coeff (TPS.truncate (n+1) p) n) (qofNat (n+1))] := by
  rw [foIter_succ] at h
  obtain ⟨a, ha, hstep⟩ := Option.bind_eq_some.mp h
  rw [foStep_eq] at hstep
  obtain ⟨p, hp, hb⟩ := Option.map_eq_some'.mp hstep
  exact ⟨a, p, ha, hp, hb.symm⟩

theorem foIter_length (F : Expr) (y0 x0 : ℚ) :
    ∀ n a, foIter F y0 x0 n = some a → a.length = n + 1 := by
  intro n
  induction n with
  | zero =>
    intro a h
    simp only [foIter, Option.some.injEq] at h
    subst h
    rfl
  | succ n ih =>
    intro b h
    obtain ⟨a, p, ha, _, hb⟩ := foIter_succ_ex F y0 x0 n b h
    subst hb
    simp [ih a ha]

theorem foIter_take (F : Expr) (y0 x0 : ℚ) :
    ∀ d n b, foIter F y0 x0 (n + d) = some b →
      foIter F y0 x0 n = some (b.take (n+1)) := by
  intro d
  induction d with
  | zero =>
    intro n b h
    rwa [TPS.take_all_of_length b (n+1) (foIter_length F y0 x0 n b h)]
  | succ d ih =>
    intro n b h
    obtain ⟨a, p, ha, _, hb⟩ := foIter_succ_ex F y0 x0 (n + d) b h
    have hlen : a.length = n + d + 1 := foIter_length F y0 x0 (n + d) a ha
    have htake : b.take (n+1) = a.take (n+1) := by
      subst hb
      exact List.take_append_of_le_length (by omega)
    rw [htake]
    exact ih n a ha

theorem foIter_coeff_zero (F : Expr) (y0 x0 : ℚ) :
    ∀ n a, foIter F y0 x0 n = some a → TPS.coeff a 0 = y0 := by
  intro n
  induction n with
  | zero =>
    intro a h
    simp only [foIter, Option.some.injEq] at h
    subst h
    rfl
  | succ n ih =>
    intro b h
    obtain ⟨a, p, ha, _, hb⟩ := foIter_succ_ex F y0 x0 n b h
    subst hb
    rw [TPS.coeff_append_lt a _ 0 (by rw [foIter_length F y0 x0 n a ha]; omega)]
    exact ih a ha

theorem foIter_coeff_succ (F : Expr) (y0 x0 : ℚ) (N : ℕ) (a : TPS)
    (h : foIter F y0 x0 N = some a) (n : ℕ) (hn : n < N) :
    ∃ p, evalE (foEnv x0 (a.take (n+1))) F = some p ∧
      TPS.coeff a (n+1) = qdiv (TPS.coeff (TPS.truncate (n+1) p) n) (qofNat (n+1)) := by
  obtain ⟨d, hd⟩ : ∃ d, N = (n + 1) + d := ⟨N - (n+1), by omega⟩
  subst hd
  have h1 : foIter F y0 x0 (n+1) = some (a.take (n+2)) := by
    have := foIter_take F y0 x0 d (n+1) a h
    simpa using this
  obtain ⟨a', p, ha', hp, hb⟩ := foIter_succ_ex F y0 x0 n (a.take (n+2)) h1
  have hlen' : a'.length = n + 1 := foIter_length F y0 x0 n a' ha'
  have ha'take : a' = a.take (n+1) := by
    have hidx : n + (d + 1) = n + 1 + d := by omega
    have := foIter_take F y0 x0 (d + 1) n a (by rw [hidx]; exact h)
    rw [ha'] at this
    exact Option.some_inj.mp this
  refine ⟨p, ?_, ?_⟩
  · rw [TPS.take_all_of_length a' (n+1) hlen'] at hp
    rw [← ha'take]
    exact hp
  · have hcoeff : TPS.coeff (a.take (n+2)) (n+1) =
        qdiv (TPS.coeff (TPS.truncate (n+1) p) n) (qofNat (n+1)) := by
      rw [hb, ← hlen']
      exact TPS.coeff_append_singleton a' _
    rw [← hcoeff]
    exact (TPS.coeff_take a (n+2) (n+1) (by omega)).symm


/-- The right-hand-side shape accepted by the scalar first-order
solver: an expression over the constants, `x`, and the unknown (in
either spelling `y(x)` or `y`). -/
def usesOnlyXY : Expr → Bool
  | .const _ => true
  | .X => true
  | .yApp => true
  | .ySym => true
  | .yDeriv _ => false
  | .fApp => false
  | .gApp => false
  | .add e1 e2 => usesOnlyXY e1 && usesOnlyXY e2
  | .mul e1 e2 => usesOnlyXY e1 && usesOnlyXY e2
  | .neg e => usesOnlyXY e
  | .pow e _ => usesOnlyXY e

/-- The right-hand-side shape accepted by the system solver: an
expression over the constants, `x`, `f(x)` and `g(x)`. -/
def usesOnlyXFG : Expr → Bool
  | .const _ => true
  | .X => true
  | .yApp => false
  | .ySym => false
  | .yDeriv _ => false
  | .fApp => true
  | .gApp => true
  | .add e1 e2 => usesOnlyXFG e1 && usesOnlyXFG e2
  | .mul e1 e2 => usesOnlyXFG e1 && usesOnlyXFG e2
  | .neg e => usesOnlyXFG e
  | .pow e _ => usesOnlyXFG e

theorem evalE_total_XY (env : Env) (hy : ∃ Y, env.yAppP = some Y)
    (hs : ∃ Y, env.ySymP = some Y) :
    ∀ e, usesOnlyXY e = true → ∃ p, evalE env e = some p := by
  intro e
  induction e with
  | const c => intro _; exact ⟨[c], rfl⟩
  | X => intro _; exact ⟨env.xP, rfl⟩
  | yApp => intro _; exact hy
  | ySym => intro _; exact hs
  | yDeriv k => intro h; simp [usesOnlyXY] at h
  | fApp => intro h; simp [usesOnlyXY] at h
  | gApp => intro h; simp [usesOnlyXY] at h
  | add e1 e2 ih1 ih2 =>
    intro h
    simp only [usesOnlyXY, Bool.and_eq_true] at h
    obtain ⟨p1, hp1⟩ := ih1 h.1
    obtain ⟨p2, hp2⟩ := ih2 h.2
    exact ⟨TPS.add p1 p2, by simp [evalE, hp1, hp2]⟩
  | mul e1 e2 ih1 ih2 =>
    intro h
    simp only [usesOnlyXY, Bool.and_eq_true] at h
    obtain ⟨p1, hp1⟩ := ih1 h.1
    obtain ⟨p2, hp2⟩ := ih2 h.2
    exact ⟨TPS.mul p1 p2, by simp [evalE, hp1, hp2]⟩
  | neg e ih =>
    intro h
    obtain ⟨p, hp⟩ := ih (by simpa [usesOnlyXY] using h)
    exact ⟨TPS.neg p, by simp [evalE, hp]⟩
  | pow e n ih =>
    intro h
    obtain ⟨p, hp⟩ := ih (by simpa [usesOnlyXY] using h)
    exact ⟨TPS.npow p n, by simp [evalE, hp]⟩

theorem evalE_total_XFG (env : Env) (hf : ∃ Y, env.fP = some Y)
    (hg : ∃ Y, env.gP = some Y) :
    ∀ e, usesOnlyXFG e = true → ∃ p, evalE env e = some p := by
  intro e
  induction e with
  | const c => intro _; exact ⟨[c], rfl⟩
  | X => intro _; exact ⟨env.xP, rfl⟩
  | yApp => intro h; simp [usesOnlyXFG] at h
  | ySym => intro h; simp [usesOnlyXFG] at h
  | yDeriv k => intro h; simp [usesOnlyXFG] at h
  | fApp => intro _; exact hf
  | gApp => intro _; exact hg
  | add e1 e2 ih1 ih2 =>
    intro h
    simp only [usesOnlyXFG, Bool.and_eq_true] at h
    obtain ⟨p1, hp1⟩ := ih1 h.1
    obtain ⟨p2, hp2⟩ := ih2 h.2
    exact ⟨TPS.add p1 p2, by simp [evalE, hp1, hp2]⟩
  | mul e1 e2 ih1 ih2 =>
    intro h
    simp only [usesOnlyXFG, Bool.and_eq_true] at h
    obtain ⟨p1, hp1⟩ := ih1 h.1
    obtain ⟨p2, hp2⟩ := ih2 h.2
    exact ⟨TPS.mul p1 p2, by simp [evalE, hp1, hp2]⟩
  | neg e ih =>
    intro h
    obtain ⟨p, hp⟩ := ih (by simpa [usesOnlyXFG] using h)
    exact ⟨TPS.neg p, by simp [evalE, hp]⟩
  | pow e n ih =>
    intro h
    obtain ⟨p, hp⟩ := ih (by simpa [usesOnlyXFG] using h)
    exact ⟨TPS.npow p n, by simp [evalE, hp]⟩

theorem series_first_order_total (F : Expr) (y0 x0 : ℚ) (hF : usesOnlyXY F = true) :
    ∀ N, ∃ a, series_first_order F y0 N x0 = some a := by
  intro N
  induction N with
  | zero => exact ⟨[y0], rfl⟩
  | succ N ih =>
    obtain ⟨a, ha⟩ := ih
    obtain ⟨p, hp⟩ := evalE_total_XY (foEnv x0 (a.take (N+1))) ⟨_, rfl⟩ ⟨_, rfl⟩ F hF
    refine ⟨a ++ [qdiv (TPS.coeff (TPS.truncate (N+1) p) N) (qofNat (N+1))], ?_⟩
    show foIter F y0 x0 (N+1) = _
    rw [foIter_succ]
    have ha' : foIter F y0 x0 N = some a := ha
    rw [ha']
    show foStep F x0 a N = _
    rw [foStep_eq, hp]
    rfl

/-- C1: whenever `series_first_order F y0 N x0` returns a series, its
coefficient `a_0` equals `y0` and, for each `n` in `0..N-1`, its
coefficient `a_{n+1}` equals `c_n / (n+1)`, where `c_n` is the
coefficient of `t^n` in `F` after substituting `x → x0 + t` and the
unknown function with the partial series of the coefficients
`a_0 .. a_n`; in particular, for `y' = y`, `y(0) = 1`, order 6 the
solver returns `1 + x + x²/2 + x³/6 + x⁴/24 + x⁵/120 + x⁶/720`. -/
theorem first_order_recurrence_correct :
    (∀ F y0 x0 N, usesOnlyXY F = true → ∃ a, series_first_order F y0 N x0 = some a) ∧
    (∀ F y0 x0 N a, series_first_order F y0 N x0 = some a →
      TPS.coeff a 0 = y0 ∧
      ∀ n, n < N → ∃ p, evalE (foEnv x0 (a.take (n+1))) F = some p ∧
        TPS.coeff a (n+1) = TPS.coeff (TPS.truncate (n+1) p) n / ((n : ℚ) + 1)) ∧
    series_first_order Expr.yApp 1 6 0 =
      some [1, 1, mkRat 1 2, mkRat 1 6, mkRat 1 24, mkRat 1 120, mkRat 1 720] := by
  refine ⟨fun F y0 x0 N hF => series_first_order_total F y0 x0 hF N, ?_, ?_⟩
  · intro F y0 x0 N a h
    refine ⟨foIter_coeff_zero F y0 x0 N a h, fun n hn => ?_⟩
    obtain ⟨p, hp, hc⟩ := foIter_coeff_succ F y0 x0 N a h n hn
    refine ⟨p, hp, ?_⟩
    rw [hc, qdiv_eq, qofNat_eq]
    push_cast
    ring
  · decide

/-- Witness for `first_order_recurrence_correct`: instantiation at
`y' = y`, `y(0) = 1`, order 6. -/
theorem first_order_recurrence_correct_witness :
    TPS.coeff [1, 1, mkRat 1 2, mkRat 1 6, mkRat 1 24, mkRat 1 120, mkRat 1 720] 0 = 1 :=
  (first_order_recurrence_correct.2.1 Expr.yApp 1 0 6 _ (by decide)).1

/-- Rewrite of a right-hand side that replaces each occurrence of the
bare symbol `y` with the applied function `y(x)`. -/
def toApplied : Expr → Expr
  | .ySym => .yApp
  | .add e1 e2 => .add (toApplied e1) (toApplied e2)
  | .mul e1 e2 => .mul (toApplied e1) (toApplied e2)
  | .neg e => .neg (toApplied e)
  | .pow e n => .pow (toApplied e) n
  | e => e

theorem evalE_toApplied (env : Env) (h : env.yAppP = env.ySymP) :
    ∀ e, evalE env (toApplied e) = evalE env e := by
  intro e
  induction e with
  | const c => rfl
  | X => rfl
  | yApp => rfl
  | ySym => exact h
  | yDeriv k => rfl
  | fApp => rfl
  | gApp => rfl
  | add e1 e2 ih1 ih2 => simp only [toApplied, evalE, ih1, ih2]
  | mul e1 e2 ih1 ih2 => simp only [toApplied, evalE, ih1, ih2]
  | neg e ih => simp only [toApplied, evalE, ih]
  | pow e n ih => simp only [toApplied, evalE, ih]

theorem foIter_toApplied (F : Expr) (y0 x0 : ℚ) :
    ∀ n, foIter (toApplied F) y0 x0 n = foIter F y0 x0 n := by
  intro n
  induction n with
  | zero => rfl
  | succ n ih =>
    rw [foIter_succ, foIter_succ, ih]
    cases foIter F y0 x0 n with
    | none => rfl
    | some a =>
      simp only [Option.some_bind]
      rw [foStep_eq, foStep_eq, evalE_toApplied _ rfl]

/-- C10: `series_first_order` substitutes both the applied function
symbol `y(x)` and the bare symbol `y` with the same partial series at
every step, so the solver applied to a right-hand side written with the
bare symbol `y` returns exactly the same series as the solver applied
to the same right-hand side written with `y(x)`. -/
theorem bare_symbol_matches_applied (F : Expr) (y0 : ℚ) (N : ℕ) (x0 : ℚ) :
    series_first_order (toApplied F) y0 N x0 = series_first_order F y0 N x0 :=
  foIter_toApplied F y0 x0 N

theorem sysStep_eq (F G : Expr) (x0 : ℚ) (ab : TPS × TPS) (n : ℕ) :
    sysStep F G x0 ab n =
      (evalE (sysEnv x0 (ab.1.take (n+1)) (ab.2.take (n+1))) F).bind (fun pF =>
        (evalE (sysEnv x0 (ab.1.take (n+1)) (ab.2.take (n+1))) G).map (fun pG =>
          (ab.1 ++ [qdiv (TPS.coeff (TPS.truncate (n+1) pF) n) (qofNat (n+1))],
           ab.2 ++ [qdiv (TPS.coeff (TPS.truncate (n+1) pG) n) (qofNat (n+1))]))) := by
  simp only [sysStep]
  cases hF : evalE (sysEnv x0 (ab.1.take (n+1)) (ab.2.take (n+1))) F
  · simp [hF]
  · cases hG : evalE (sysEnv x0 (ab.1.take (n+1)) (ab.2.take (n+1))) G
    · simp [hF, hG]
    · simp [hF, hG]

theorem sysIter_succ (F G : Expr) (f0 g0 x0 : ℚ) (n : ℕ) :
    sysIter F G f0 g0 x0 (n+1) =
      (sysIter F G f0 g0 x0 n).bind (fun ab => sysStep F G x0 ab n) := rfl

theorem sysIter_succ_ex (F G : Expr) (f0 g0 x0 : ℚ) (n : ℕ) (cd : TPS × TPS)
    (h : sysIter F G f0 g0 x0 (n+1) = some cd) :
    ∃ ab pF pG, sysIter F G f0 g0 x0 n = some ab ∧
      evalE (sysEnv x0 (ab.1.take (n+1)) (ab.2.take (n+1))) F = some pF ∧
      evalE (sysEnv x0 (ab.1.take (n+1)) (ab.2.take (n+1))) G = some pG ∧
      cd = (ab.1 ++ [qdiv (TPS.coeff (TPS.truncate (n+1) pF) n) (qofNat (n+1))],
            ab.2 ++ [qdiv (TPS.coeff (TPS.truncate (n+1) pG) n) (qofNat (n+1))]) := by
  rw [sysIter_succ] at h
  obtain ⟨ab, hab, hstep⟩ := Option.bind_eq_some.mp h
  rw [sysStep_eq] at hstep
  obtain ⟨pF, hpF, hmap⟩ := Option.bind_eq_some.mp hstep
  obtain ⟨pG, hpG, hcd⟩ := Option.map_eq_some'.mp hmap
  exact ⟨ab, pF, pG, hab, hpF, hpG, hcd.symm⟩

theorem sysIter_length (F G : Expr) (f0 g0 x0 : ℚ) :
    ∀ n ab, sysIter F G f0 g0 x0 n = some ab →
      ab.1.length = n + 1 ∧ ab.2.length = n + 1 := by
  intro n
  induction n with
  | zero =>
    intro ab h
    simp only [sysIter, Option.some.injEq] at h
    subst h
    exact ⟨rfl, rfl⟩
  | succ n ih =>
    intro cd h
    obtain ⟨ab, pF, pG, hab, _, _, hcd⟩ := sysIter_succ_ex F G f0 g0 x0 n cd h
    obtain ⟨h1, h2⟩ := ih ab hab
    subst hcd
    constructor
    · simp [h1]
    · simp [h2]

theorem sysIter_take (F G : Expr) (f0 g0 x0 : ℚ) :
    ∀ d n cd, sysIter F G f0 g0 x0 (n + d) = some cd →
      sysIter F G f0 g0 x0 n = some (cd.1.take (n+1), cd.2.take (n+1)) := by
  intro d
  induction d with
  | zero =>
    intro n cd h
    obtain ⟨h1, h2⟩ := sysIter_length F G f0 g0 x0 n cd h
    rw [TPS.take_all_of_length cd.1 (n+1) h1, TPS.take_all_of_length cd.2 (n+1) h2]
    simpa using h
  | succ d ih =>
    intro n cd h
    obtain ⟨ab, pF, pG, hab, _, _, hcd⟩ := sysIter_succ_ex F G f0 g0 x0 (n + d) cd h
    obtain ⟨h1, h2⟩ := sysIter_length F G f0 g0 x0 (n + d) ab hab
    have e1 : cd.1.take (n+1) = ab.1.take (n+1) := by
      subst hcd
      exact List.take_append_of_le_length (by omega)
    have e2 : cd.2.take (n+1) = ab.2.take (n+1) := by
      subst hcd
      exact List.take_append_of_le_length (by omega)
    rw [e1, e2]
    exact ih n ab hab

theorem sysIter_coeff_zero (F G : Expr) (f0 g0 x0 : ℚ) :
    ∀ n ab, sysIter F G f0 g0 x0 n = some ab →
      TPS.coeff ab.1 0 = f0 ∧ TPS.coeff ab.2 0 = g0 := by
  intro n
  induction n with
  | zero =>
    intro ab h
    simp only [sysIter, Option.some.injEq] at h
    subst h
    exact ⟨rfl, rfl⟩
  | succ n ih =>
    intro cd h
    obtain ⟨ab, pF, pG, hab, _, _, hcd⟩ := sysIter_succ_ex F G f0 g0 x0 n cd h
    obtain ⟨h1, h2⟩ := sysIter_length F G f0 g0 x0 n ab hab
    obtain ⟨hz1, hz2⟩ := ih ab hab
    subst hcd
    constructor
    · rw [TPS.coeff_append_lt ab.1 _ 0 (by omega)]
      exact hz1
    · rw [TPS.coeff_append_lt ab.2 _ 0 (by omega)]
      exact hz2

theorem sysIter_coeff_succ (F G : Expr) (f0 g0 x0 : ℚ) (N : ℕ) (ab : TPS × TPS)
    (h : sysIter F G f0 g0 x0 N = some ab) (n : ℕ) (hn : n < N) :
    ∃ pF pG, evalE (sysEnv x0 (ab.1.take (n+1)) (ab.2.take (n+1))) F = some pF ∧
      evalE (sysEnv x0 (ab.1.take (n+1)) (ab.2.take (n+1))) G = some pG ∧
      TPS.coeff ab.1 (n+1) = qdiv (TPS.coeff (TPS.truncate (n+1) pF) n) (qofNat (n+1)) ∧
      TPS.coeff ab.2 (n+1) = qdiv (TPS.coeff (TPS.truncate (n+1) pG) n) (qofNat (n+1)) := by
  obtain ⟨d, hd⟩ : ∃ d, N = (n + 1) + d := ⟨N - (n+1), by omega⟩
  subst hd
  have h1 : sysIter F G f0 g0 x0 (n+1) = some (ab.1.take (n+2), ab.2.take (n+2)) :=
    sysIter_take F G f0 g0 x0 d (n+1) ab h
  obtain ⟨ab', pF, pG, hab', hpF, hpG, hcd⟩ :=
    sysIter_succ_ex F G f0 g0 x0 n (ab.1.take (n+2), ab.2.take (n+2)) h1
  obtain ⟨hl1, hl2⟩ := sysIter_length F G f0 g0 x0 n ab' hab'
  have hab'take : ab' = (ab.1.take (n+1), ab.2.take (n+1)) := by
    have hidx : n + (d + 1) = n + 1 + d := by omega
    have := sysIter_take F G f0 g0 x0 (d + 1) n ab (by rw [hidx]; exact h)
    rw [hab'] at this
    exact Option.some_inj.mp this
  have htk1 : ab'.1.take (n+1) = ab.1.take (n+1) := by
    rw [TPS.take_all_of_length ab'.1 (n+1) hl1, hab'take]
  have htk2 : ab'.2.take (n+1) = ab.2.take (n+1) := by
    rw [TPS.take_all_of_length ab'.2 (n+1) hl2, hab'take]
  rw [htk1, htk2] at hpF hpG
  refine ⟨pF, pG, hpF, hpG, ?_, ?_⟩
  · have : TPS.coeff (ab.1.take (n+2)) (n+1) =
        qdiv (TPS.coeff (TPS.truncate (n+1) pF) n) (qofNat (n+1)) := by
      have hfst : ab.1.take (n+2) =
          ab'.1 ++ [qdiv (TPS.coeff (TPS.truncate (n+1) pF) n) (qofNat (n+1))] :=
        congrArg Prod.fst hcd
      rw [hfst, ← hl1]
      exact TPS.coeff_append_singleton ab'.1 _
    rw [← this]
    exact (TPS.coeff_take ab.1 (n+2) (n+1) (by omega)).symm
  · have : TPS.coeff (ab.2.take (n+2)) (n+1) =
        qdiv (TPS.coeff (TPS.truncate (n+1) pG) n) (qofNat (n+1)) := by
      have hsnd : ab.2.take (n+2) =
          ab'.2 ++ [qdiv (TPS.coeff (TPS.truncate (n+1) pG) n) (qofNat (n+1))] :=
        congrArg Prod.snd hcd
      rw [hsnd, ← hl2]
      exact TPS.coeff_append_singleton ab'.2 _
    rw [← this]
    exact (TPS.coeff_take ab.2 (n+2) (n+1) (by omega)).symm

theorem series_system_2x2_total (F G : Expr) (f0 g0 x0 : ℚ)
    (hF : usesOnlyXFG F = true) (hG : usesOnlyXFG G = true) :
    ∀ N, ∃ ab, series_system_2x2 F G f0 g0 N x0 = some ab := by
  intro N
  induction N with
  | zero => exact ⟨([f0], [g0]), rfl⟩
  | succ N ih =>
    obtain ⟨ab, hab⟩ := ih
    obtain ⟨pF, hpF⟩ := evalE_total_XFG (sysEnv x0 (ab.1.take (N+1)) (ab.2.take (N+1)))
      ⟨_, rfl⟩ ⟨_, rfl⟩ F hF
    obtain ⟨pG, hpG⟩ := evalE_total_XFG (sysEnv x0 (ab.1.take (N+1)) (ab.2.take (N+1)))
      ⟨_, rfl⟩ ⟨_, rfl⟩ G hG
    refine ⟨(ab.1 ++ [qdiv (TPS.coeff (TPS.truncate (N+1) pF) N) (qofNat (N+1))],
             ab.2 ++ [qdiv (TPS.coeff (TPS.truncate (N+1) pG) N) (qofNat (N+1))]), ?_⟩
    show sysIter F G f0 g0 x0 (N+1) = _
    rw [sysIter_succ]
    have hab' : sysIter F G f0 g0 x0 N = some ab := hab
    rw [hab']
    show sysStep F G x0 ab N = _
    rw [sysStep_eq, hpF, hpG]
    rfl

/-- C3: whenever `series_system_2x2 F G f0 g0 N x0` returns a pair of
series, each step `n` in `0..N-1` computed the next coefficients
`af_{n+1}` and `ag_{n+1}` as the `t^n` coefficients of the substituted
`F` and `G` each divided by `(n+1)`, where the substitution uses only
the coefficients of degree `≤ n` of both partial series; in particular,
for `f' = f+g`, `g' = f+g` with `f(0) = 1`, `g(0) = 0` at order 5 it
returns `f = 1 + x + x² + 2x³/3 + x⁴/3 + 2x⁵/15` and
`g = x + x² + 2x³/3 + x⁴/3 + 2x⁵/15`, with the `x⁵` coefficient equal
to `2/15` (not `1/15`). -/
theorem system_2x2_recurrence_correct :
    (∀ F G f0 g0 x0 N, usesOnlyXFG F = true → usesOnlyXFG G = true →
      ∃ ab, series_system_2x2 F G f0 g0 N x0 = some ab) ∧
    (∀ F G f0 g0 x0 N ab, series_system_2x2 F G f0 g0 N x0 = some ab →
      ∀ n, n < N →
        ∃ pF pG, evalE (sysEnv x0 (ab.1.take (n+1)) (ab.2.take (n+1))) F = some pF ∧
          evalE (sysEnv x0 (ab.1.take (n+1)) (ab.2.take (n+1))) G = some pG ∧
          TPS.coeff ab.1 (n+1) = TPS.coeff (TPS.truncate (n+1) pF) n / ((n : ℚ) + 1) ∧
          TPS.coeff ab.2 (n+1) = TPS.coeff (TPS.truncate (n+1) pG) n / ((n : ℚ) + 1)) ∧
    series_system_2x2 (Expr.add Expr.fApp Expr.gApp) (Expr.add Expr.fApp Expr.gApp)
        1 0 5 0 =
      some ([1, 1, 1, mkRat 2 3, mkRat 1 3, mkRat 2 15],
            [0, 1, 1, mkRat 2 3, mkRat 1 3, mkRat 2 15]) ∧
    TPS.coeff [1, 1, 1, mkRat 2 3, mkRat 1 3, mkRat 2 15] 5 = 2 / 15 := by
  refine ⟨fun F G f0 g0 x0 N hF hG => series_system_2x2_total F G f0 g0 x0 hF hG N,
    ?_, by decide, ?_⟩
  · intro F G f0 g0 x0 N ab h n hn
    obtain ⟨pF, pG, hpF, hpG, hc1, hc2⟩ := sysIter_coeff_succ F G f0 g0 x0 N ab h n hn
    refine ⟨pF, pG, hpF, hpG, ?_, ?_⟩
    · rw [hc1, qdiv_eq, qofNat_eq]
      push_cast
      ring
    · rw [hc2, qdiv_eq, qofNat_eq]
      push_cast
      ring
  · show (mkRat 2 15 : ℚ) = 2 / 15
    rw [Rat.mkRat_eq_divInt, Rat.divInt_eq_div]
    norm_num

/-- Witness for `system_2x2_recurrence_correct`: instantiation at
`f' = f + g`, `g' = f + g`, `f(0) = 1`, `g(0) = 0`, order 5, step
`n = 4` (the historically miscomputed `x⁵` coefficient). -/
theorem system_2x2_recurrence_correct_witness :
    ∃ pF pG,
      evalE (sysEnv 0 (([1, 1, 1, mkRat 2 3, mkRat 1 3, mkRat 2 15] : TPS).take 5)
          (([0, 1, 1, mkRat 2 3, mkRat 1 3, mkRat 2 15] : TPS).take 5))
        (Expr.add Expr.fApp Expr.gApp) = some pF ∧
      evalE (sysEnv 0 (([1, 1, 1, mkRat 2 3, mkRat 1 3, mkRat 2 15] : TPS).take 5)
          (([0, 1, 1, mkRat 2 3, mkRat 1 3, mkRat 2 15] : TPS).take 5))
        (Expr.add Expr.fApp Expr.gApp) = some pG ∧
      TPS.coeff [1, 1, 1, mkRat 2 3, mkRat 1 3, mkRat 2 15] 5 =
        TPS.coeff (TPS.truncate 5 pF) 4 / (((4 : ℕ) : ℚ) + 1) ∧
      TPS.coeff [0, 1, 1, mkRat 2 3, mkRat 1 3, mkRat 2 15] 5 =
        TPS.coeff (TPS.truncate 5 pG) 4 / (((4 : ℕ) : ℚ) + 1) :=
  system_2x2_recurrence_correct.2.1 (Expr.add Expr.fApp Expr.gApp)
    (Expr.add Expr.fApp Expr.gApp) 1 0 0 5
    ([1, 1, 1, mkRat 2 3, mkRat 1 3, mkRat 2 15],
     [0, 1, 1, mkRat 2 3, mkRat 1 3, mkRat 2 15]) (by decide) 4 (by decide)

theorem series_nth_order_eq (m : ℕ) (G : Expr) (ics : List (ℕ × ℚ)) (order : ℕ)
    (x0 : ℚ) :
    series_nth_order m G ics order x0 =
      (icsInit order ics).bind (fun a => nthIter m G x0 order a (order + 1 - m)) := rfl

theorem icsFold_length : ∀ (ics : List (ℕ × ℚ)) (A b : TPS),
    List.foldlM icsSet A ics = some b → b.length = A.length := by
  intro ics
  induction ics with
  | nil =>
    intro A b h
    simp only [List.foldlM_nil] at h
    cases h
    rfl
  | cons kv rest ih =>
    intro A b h
    rw [List.foldlM_cons] at h
    unfold icsSet at h
    by_cases hk : kv.1 < A.length
    · rw [if_pos hk] at h
      have := ih (A.set kv.1 kv.2) b h
      simpa using this
    · rw [if_neg hk] at h
      simp at h

theorem icsFold_keys : ∀ (ics : List (ℕ × ℚ)) (A b : TPS),
    List.foldlM icsSet A ics = some b → ∀ kv ∈ ics, kv.1 < A.length := by
  intro ics
  induction ics with
  | nil => intro A b _ kv hkv; simp at hkv
  | cons kv0 rest ih =>
    intro A b h kv hkv
    rw [List.foldlM_cons] at h
    unfold icsSet at h
    by_cases hk : kv0.1 < A.length
    · rw [if_pos hk] at h
      rcases List.mem_cons.mp hkv with rfl | hmem
      · exact hk
      · have := ih (A.set kv0.1 kv0.2) b h kv hmem
        simpa using this
    · rw [if_neg hk] at h
      simp at h

theorem icsFold_some : ∀ (ics : List (ℕ × ℚ)) (A : TPS),
    (∀ kv ∈ ics, kv.1 < A.length) → ∃ b, List.foldlM icsSet A ics = some b := by
  intro ics
  induction ics with
  | nil => intro A _; exact ⟨A, rfl⟩
  | cons kv rest ih =>
    intro A h
    have hk : kv.1 < A.length := h kv (List.mem_cons_self _ _)
    obtain ⟨b, hb⟩ := ih (A.set kv.1 kv.2)
      (fun p hp => by simpa using h p (List.mem_cons_of_mem _ hp))
    refine ⟨b, ?_⟩
    rw [List.foldlM_cons]
    unfold icsSet
    rw [if_pos hk]
    simpa using hb

theorem icsFold_coeff_not_mem : ∀ (ics : List (ℕ × ℚ)) (A b : TPS) (k : ℕ),
    List.foldlM icsSet A ics = some b → (∀ v, ((k, v) : ℕ × ℚ) ∉ ics) →
    TPS.coeff b k = TPS.coeff A k := by
  intro ics
  induction ics with
  | nil =>
    intro A b k h _
    simp only [List.foldlM_nil] at h
    cases h
    rfl
  | cons kv rest ih =>
    intro A b k h hnot
    rw [List.foldlM_cons] at h
    unfold icsSet at h
    by_cases hk : kv.1 < A.length
    · rw [if_pos hk] at h
      have hrest : ∀ v, ((k, v) : ℕ × ℚ) ∉ rest :=
        fun v hv => hnot v (List.mem_cons_of_mem _ hv)
      rw [ih (A.set kv.1 kv.2) b k h hrest]
      have hne : kv.1 ≠ k := by
        intro he
        exact hnot kv.2 (by rw [← he]; exact List.mem_cons_self _ _)
      exact TPS.coeff_set_ne A kv.1 k kv.2 hne
    · rw [if_neg hk] at h
      simp at h

theorem icsFold_coeff_mem : ∀ (ics : List (ℕ × ℚ)) (A b : TPS) (k : ℕ) (v : ℚ),
    List.foldlM icsSet A ics = some b → (ics.map Prod.fst).Nodup →
    ((k, v) : ℕ × ℚ) ∈ ics → TPS.coeff b k = v := by
  intro ics
  induction ics with
  | nil => intro A b k v _ _ hmem; simp at hmem
  | cons kv rest ih =>
    intro A b k v h hnodup hmem
    rw [List.foldlM_cons] at h
    unfold icsSet at h
    by_cases hk : kv.1 < A.length
    · rw [if_pos hk] at h
      rcases List.mem_cons.mp hmem with heq | hmem'
      · have hkk : kv = (k, v) := heq.symm
        subst hkk
        have hknot : ∀ w, ((k, w) : ℕ × ℚ) ∉ rest := by
          intro w hw
          have : k ∈ rest.map Prod.fst := List.mem_map.mpr ⟨(k, w), hw, rfl⟩
          exact (List.nodup_cons.mp (by simpa using hnodup)).1 this
        rw [icsFold_coeff_not_mem rest (A.set k v) b k h hknot]
        exact TPS.coeff_set_self A k v hk
      · exact ih (A.set kv.1 kv.2) b k v h (List.nodup_cons.mp (by simpa using hnodup)).2
          hmem'
    · rw [if_neg hk] at h
      simp at h

theorem icsInit_length (order : ℕ) (ics : List (ℕ × ℚ)) (b : TPS)
    (h : icsInit order ics = some b) : b.length = order + 1 := by
  have := icsFold_length ics _ b h
  simpa using this

theorem nthStep_eq (m : ℕ) (G : Expr) (x0 : ℚ) (order : ℕ) (a : TPS) (n : ℕ) :
    nthStep m G x0 order a n =
      (evalE (nthEnv m x0 (a.take (min (n + m - 1) order + 1))) G).map (fun p =>
        a.set (n + m) (qdiv (TPS.coeff (TPS.truncate (n+1) p) n)
          (qdiv (qofNat (Nat.factorial (n + m))) (qofNat (Nat.factorial n))))) := by
  simp only [nthStep]
  cases h : evalE (nthEnv m x0 (a.take (min (n + m - 1) order + 1))) G
  · simp [h]
  · simp [h]

theorem nthIter_succ (m : ℕ) (G : Expr) (x0 : ℚ) (order : ℕ) (a : TPS) (s : ℕ) :
    nthIter m G x0 order a (s+1) =
      (nthIter m G x0 order a s).bind (fun a' => nthStep m G x0 order a' s) := rfl

theorem nthIter_succ_ex (m : ℕ) (G : Expr) (x0 : ℚ) (order : ℕ) (a : TPS) (s : ℕ)
    (b : TPS) (h : nthIter m G x0 order a (s+1) = some b) :
    ∃ c p, nthIter m G x0 order a s = some c ∧
      evalE (nthEnv m x0 (c.take (min (s + m - 1) order + 1))) G = some p ∧
      b = c.set (s + m) (qdiv (TPS.coeff (TPS.truncate (s+1) p) s)
        (qdiv (qofNat (Nat.factorial (s + m))) (qofNat (Nat.factorial s)))) := by
  rw [nthIter_succ] at h
  obtain ⟨c, hc, hstep⟩ := Option.bind_eq_some.mp h
  rw [nthStep_eq] at hstep
  obtain ⟨p, hp, hb⟩ := Option.map_eq_some'.mp hstep
  exact ⟨c, p, hc, hp, hb.symm⟩

theorem nthIter_length (m : ℕ) (G : Expr) (x0 : ℚ) (order : ℕ) (a : TPS) :
    ∀ s b, nthIter m G x0 order a s = some b → b.length = a.length := by
  intro s
  induction s with
  | zero =>
    intro b h
    simp only [nthIter, Option.some.injEq] at h
    subst h
    rfl
  | succ s ih =>
    intro b h
    obtain ⟨c, p, hc, _, hb⟩ := nthIter_succ_ex m G x0 order a s b h
    subst hb
    simp [ih c hc]

theorem nthIter_mono (m : ℕ) (G : Expr) (x0 : ℚ) (order : ℕ) (a : TPS) :
    ∀ s b, nthIter m G x0 order a s = some b → ∀ j, j ≤ s →
      ∃ c, nthIter m G x0 order a j = some c := by
  intro s
  induction s with
  | zero =>
    intro b h j hj
    have : j = 0 := Nat.le_zero.mp hj
    subst this
    exact ⟨b, h⟩
  | succ s ih =>
    intro b h j hj
    obtain ⟨c, p, hc, _, _⟩ := nthIter_succ_ex m G x0 order a s b h
    rcases Nat.lt_or_ge j (s+1) with hlt | hge
    · exact ih c hc j (by omega)
    · have : j = s + 1 := by omega
      subst this
      exact ⟨b, h⟩

theorem nthIter_take_stable (m : ℕ) (G : Expr) (x0 : ℚ) (order : ℕ) (a : TPS) :
    ∀ s b, nthIter m G x0 order a s = some b →
      ∀ j, j ≤ s → ∀ c, nthIter m G x0 order a j = some c →
        ∀ K, K ≤ j + m → b.take K = c.take K := by
  intro s
  induction s with
  | zero =>
    intro b h j hj c hc K _
    have : j = 0 := Nat.le_zero.mp hj
    subst this
    rw [h] at hc
    cases Option.some_inj.mp hc
    rfl
  | succ s ih =>
    intro b h j hj c hc K hK
    obtain ⟨c', p, hc', _, hb⟩ := nthIter_succ_ex m G x0 order a s b h
    rcases Nat.lt_or_ge j (s+1) with hlt | hge
    · have hstep : b.take K = c'.take K := by
        subst hb
        exact TPS.take_set_of_le c' (s + m) K _ (by omega)
      rw [hstep]
      exact ih c' hc' j (by omega) c hc K hK
    · have : j = s + 1 := by omega
      subst this
      rw [h] at hc
      cases Option.some_inj.mp hc
      rfl

theorem TPS.coeff_replicate (n k : ℕ) : TPS.coeff (List.replicate n (0 : ℚ)) k = 0 := by
  unfold TPS.coeff
  rw [List.getD_eq_getElem?_getD, List.getElem?_replicate]
  split <;> rfl

theorem TPS.set_coeff_self (l : TPS) : ∀ k, k < l.length → l.set k (TPS.coeff l k) = l := by
  induction l with
  | nil => intro k h; simp at h
  | cons a l ih =>
    intro k h
    cases k with
    | zero => rfl
    | succ k =>
      simp only [List.set]
      have hc : TPS.coeff (a :: l) (k+1) = TPS.coeff l k := rfl
      rw [hc, ih k (by simpa using h)]

theorem series_nth_coeff (m : ℕ) (G : Expr) (ics : List (ℕ × ℚ)) (N : ℕ) (x0 : ℚ)
    (a : TPS) (h : series_nth_order m G ics N x0 = some a) (hm : 1 ≤ m)
    (n : ℕ) (hn : n + m ≤ N) :
    ∃ p, evalE (nthEnv m x0 (a.take (n + m))) G = some p ∧
      TPS.coeff a (n + m) = qdiv (TPS.coeff (TPS.truncate (n+1) p) n)
        (qdiv (qofNat (Nat.factorial (n + m))) (qofNat (Nat.factorial n))) := by
  rw [series_nth_order_eq] at h
  obtain ⟨a0, ha0, hiter⟩ := Option.bind_eq_some.mp h
  have ha0len : a0.length = N + 1 := icsInit_length N ics a0 ha0
  have hs1 : n + 1 ≤ N + 1 - m := by omega
  obtain ⟨b1, hb1⟩ := nthIter_mono m G x0 N a0 _ a hiter (n+1) hs1
  obtain ⟨c, p, hc, hp, hbeq⟩ := nthIter_succ_ex m G x0 N a0 n b1 hb1
  have hclen : c.length = N + 1 := by rw [nthIter_length m G x0 N a0 n c hc, ha0len]
  have hmin : min (n + m - 1) N + 1 = n + m := by omega
  rw [hmin] at hp
  have htake : a.take (n + m) = c.take (n + m) :=
    nthIter_take_stable m G x0 N a0 _ a hiter n (by omega) c hc (n + m) (by omega)
  rw [htake]
  refine ⟨p, hp, ?_⟩
  have hcoeff1 : TPS.coeff a (n + m) = TPS.coeff b1 (n + m) := by
    have ht : a.take (n + m + 1) = b1.take (n + m + 1) :=
      nthIter_take_stable m G x0 N a0 _ a hiter (n+1) (by omega) b1 hb1 (n + m + 1)
        (by omega)
    have e1 := TPS.coeff_take a (n + m + 1) (n + m) (by omega)
    have e2 := TPS.coeff_take b1 (n + m + 1) (n + m) (by omega)
    rw [← e1, ht, e2]
  rw [hcoeff1, hbeq]
  exact TPS.coeff_set_self c (n + m) _ (by omega)

/-- C2: for `m ≥ 1`, whenever `series_nth_order m G ics N x0` returns a
series, each recurrence step `n` (with `n + m ≤ N`) set the coefficient
`a_{n+m}` to `c_n · n!/(n+m)!`, where `c_n` is the coefficient of `t^n`
extracted from the substituted, truncated `G`; in particular, for
`y'' = -y` with `y(0) = 1`, `y'(0) = 0` at order 6 the solver returns
`1 - x²/2 + x⁴/24 - x⁶/720`. -/
theorem nth_order_recurrence_correct :
    (∀ m G ics x0 N a, 1 ≤ m → series_nth_order m G ics N x0 = some a →
      ∀ n, n + m ≤ N →
        ∃ p, evalE (nthEnv m x0 (a.take (n + m))) G = some p ∧
          TPS.coeff a (n + m) =
            TPS.coeff (TPS.truncate (n+1) p) n * (Nat.factorial n : ℚ) /
              (Nat.factorial (n + m) : ℚ)) ∧
    series_nth_order 2 (Expr.neg Expr.yApp) [(0, 1), (1, 0)] 6 0 =
      some [1, 0, mkRat (-1) 2, 0, mkRat 1 24, 0, mkRat (-1) 720] := by
  constructor
  · intro m G ics x0 N a hm h n hn
    obtain ⟨p, hp, hc⟩ := series_nth_coeff m G ics N x0 a h hm n hn
    refine ⟨p, hp, ?_⟩
    rw [hc, qdiv_eq, qdiv_eq, qofNat_eq, qofNat_eq, div_div_eq_mul_div]
  · decide

/-- Witness for `nth_order_recurrence_correct`: instantiation at
`y'' = -y`, `y(0) = 1`, `y'(0) = 0`, order 6, step `n = 0`. -/
theorem nth_order_recurrence_correct_witness :
    ∃ p, evalE (nthEnv 2 0
        (([1, 0, mkRat (-1) 2, 0, mkRat 1 24, 0, mkRat (-1) 720] : TPS).take 2))
        (Expr.neg Expr.yApp) = some p ∧
      TPS.coeff [1, 0, mkRat (-1) 2, 0, mkRat 1 24, 0, mkRat (-1) 720] 2 =
        TPS.coeff (TPS.truncate 1 p) 0 * (Nat.factorial 0 : ℚ) /
          (Nat.factorial 2 : ℚ) :=
  nth_order_recurrence_correct.1 2 (Expr.neg Expr.yApp) [(0, 1), (1, 0)] 0 6 _
    (by decide) (by decide) 0 (by decide)

/-- C4 (refuting the claim): the substitution map built at each step of
`series_nth_order` binds the derivative symbols `y^(0) .. y^(m-2)` but
never `y^(m-1)` (the loop `for k in range(1, m)` uses the key
`Derivative(y(x), x, k-1)` instead of `Derivative(y(x), x, k)`), so for
`m = 2` an occurrence of `y'` in `G` is never substituted with the
derivative of the partial series: for `y'' = y'` with `y(0) = 0`,
`y'(0) = 1`, order 2, the extracted coefficient is not a rational value
and the solve yields `none` instead of the series of `eˣ - 1`. -/
theorem nth_order_deriv_symbol_unbound :
    (∀ x0 Y, (nthEnv 2 x0 Y).yDerivP 1 = none) ∧
    series_nth_order 2 (Expr.yDeriv 1) [(0, 0), (1, 1)] 2 0 = none := by
  refine ⟨fun x0 Y => ?_, by decide⟩
  simp [nthEnv]

/-- C6 (refuting the claim): a missing initial condition does not make
the solve fail — `series_nth_order` silently treats the omitted entry
as zero.  With `m = 2`, `ics = {0: 1}` (the entry for `y'(0)` omitted),
order 2, the call succeeds and returns the polynomial `1`. -/
theorem missing_ic_no_error_counterexample :
    series_nth_order 2 (Expr.const 0) [(0, 1)] 2 0 = some [1, 0, 0] := by decide

/-- C6 (amended): if the initial-condition map omits a derivative order
`k` in `{0..m-1}` (more generally, any index `k ≤ N`), the solver
treats the missing entry exactly as the value zero: appending an
explicit `(k, 0)` entry leaves the result unchanged, and no error of
any kind is raised. -/
theorem missing_ic_defaults_to_zero (m : ℕ) (G : Expr) (ics : List (ℕ × ℚ))
    (N : ℕ) (x0 : ℚ) (k : ℕ) (hk : k ≤ N)
    (hmem : ∀ v : ℚ, ((k, v) : ℕ × ℚ) ∉ ics) :
    series_nth_order m G (ics ++ [(k, 0)]) N x0 = series_nth_order m G ics N x0 := by
  rw [series_nth_order_eq, series_nth_order_eq]
  suffices hsuff : icsInit N (ics ++ [(k, 0)]) = icsInit N ics by rw [hsuff]
  unfold icsInit
  rw [List.foldlM_append]
  rcases hcase : List.foldlM icsSet (List.replicate (N+1) (0 : ℚ)) ics with _ | b
  · rfl
  · have hblen : b.length = N + 1 := by simpa using icsFold_length ics _ b hcase
    have hcoeff : TPS.coeff b k = 0 := by
      rw [icsFold_coeff_not_mem ics _ b k hcase hmem]
      exact TPS.coeff_replicate (N+1) k
    show (some b).bind (fun b' => List.foldlM icsSet b' [(k, 0)]) = some b
    show List.foldlM icsSet b [(k, 0)] = some b
    rw [List.foldlM_cons]
    unfold icsSet
    rw [if_pos (by omega)]
    show List.foldlM icsSet (b.set k 0) [] = some b
    rw [List.foldlM_nil]
    rw [← hcoeff, TPS.set_coeff_self b k (by omega)]
    rfl

/-- Witness for `missing_ic_defaults_to_zero`: omitting the entry for
`y'(0)` is the same as supplying it as `0`. -/
theorem missing_ic_defaults_to_zero_witness :
    series_nth_order 2 (Expr.const 0) ([(0, 1)] ++ [(1, 0)]) 2 0 =
      series_nth_order 2 (Expr.const 0) [(0, 1)] 2 0 :=
  missing_ic_defaults_to_zero 2 (Expr.const 0) [(0, 1)] 2 0 1 (by decide)
    (fun v => by simp)

/-- C7 (refuting the claim): for `N < m - 1` with a complete set of
initial conditions the solve does not return the shorter polynomial of
the supplied values — it fails, because the assignment `a[k] = val`
with `k > N` is out of range.  With `m = 2`, `ics = {0: 1, 1: 2}`,
order 0, the call yields `none`. -/
theorem low_order_crash_counterexample :
    series_nth_order 2 (Expr.const 0) [(0, 1), (1, 2)] 0 0 = none := by decide

/-- C7 (amended): when `N < m - 1` and every supplied initial-condition
index is `≤ N`, no recurrence step runs and the result is simply the
supplied values as a shorter polynomial (length `N+1`, entries taken
directly from `ics`, zero where `ics` has no entry); but a complete
initial-condition map on `{0..m-1}` necessarily contains an index
`> N`, in which case the call fails instead (see
`low_order_crash_counterexample`). -/
theorem low_order_returns_ics (m : ℕ) (G : Expr) (ics : List (ℕ × ℚ)) (N : ℕ)
    (x0 : ℚ) (hlow : N < m - 1) (hkeys : ∀ kv ∈ ics, kv.1 ≤ N)
    (hnodup : (ics.map Prod.fst).Nodup) :
    ∃ a, series_nth_order m G ics N x0 = some a ∧
      series_nth_order m G ics N x0 = icsInit N ics ∧
      a.length = N + 1 ∧
      (∀ k v, ((k, v) : ℕ × ℚ) ∈ ics → TPS.coeff a k = v) ∧
      (∀ k, (∀ v : ℚ, ((k, v) : ℕ × ℚ) ∉ ics) → TPS.coeff a k = 0) := by
  have hloop : N + 1 - m = 0 := by omega
  obtain ⟨a, ha⟩ := icsFold_some ics (List.replicate (N+1) (0 : ℚ))
    (fun kv hkv => by simpa using Nat.lt_succ_of_le (hkeys kv hkv))
  have hins : icsInit N ics = some a := ha
  refine ⟨a, ?_, ?_, ?_, ?_, ?_⟩
  · rw [series_nth_order_eq, hloop, hins]
    rfl
  · rw [series_nth_order_eq, hloop, hins]
    rfl
  · simpa using icsFold_length ics _ a ha
  · intro k v hkv
    exact icsFold_coeff_mem ics _ a k v ha hnodup hkv
  · intro k hk
    rw [icsFold_coeff_not_mem ics _ a k ha hk]
    exact TPS.coeff_replicate (N+1) k

/-- Witness for `low_order_returns_ics`: `m = 3`, `ics = {0: 5, 1: 7}`,
order 1 — no recurrence runs and the result is `[5, 7]`. -/
theorem low_order_returns_ics_witness :
    ∃ a, series_nth_order 3 Expr.yApp [(0, 5), (1, 7)] 1 0 = some a ∧
      series_nth_order 3 Expr.yApp [(0, 5), (1, 7)] 1 0 = icsInit 1 [(0, 5), (1, 7)] ∧
      a.length = 1 + 1 ∧
      (∀ k v, ((k, v) : ℕ × ℚ) ∈ [((0 : ℕ), (5 : ℚ)), (1, 7)] → TPS.coeff a k = v) ∧
      (∀ k, (∀ v : ℚ, ((k, v) : ℕ × ℚ) ∉ [((0 : ℕ), (5 : ℚ)), (1, 7)]) →
        TPS.coeff a k = 0) :=
  low_order_returns_ics 3 Expr.yApp [(0, 5), (1, 7)] 1 0 (by decide)
    (by
      intro kv hkv
      rcases List.mem_cons.mp hkv with rfl | hkv'
      · decide
      · rcases List.mem_cons.mp hkv' with rfl | hkv''
        · decide
        · simp at hkv'')
    (by decide)

/-- C8: for every solver and every valid input, the degree-0
coefficient of each returned series (and, for `series_nth_order`, each
coefficient of degree `k < m` supplied through `ics`) exactly equals
the corresponding initial condition — the recurrence steps write only
indices `≥ 1` (respectively `≥ m`) and never overwrite them. -/
theorem initial_value_law :
    (∀ F y0 x0 N a, series_first_order F y0 N x0 = some a → TPS.coeff a 0 = y0) ∧
    (∀ m G ics x0 N a, series_nth_order m G ics N x0 = some a →
      (ics.map Prod.fst).Nodup →
      ∀ k v, ((k, v) : ℕ × ℚ) ∈ ics → k < m → TPS.coeff a k = v) ∧
    (∀ F G f0 g0 x0 N ab, series_system_2x2 F G f0 g0 N x0 = some ab →
      TPS.coeff ab.1 0 = f0 ∧ TPS.coeff ab.2 0 = g0) := by
  refine ⟨?_, ?_, ?_⟩
  · intro F y0 x0 N a h
    exact foIter_coeff_zero F y0 x0 N a h
  · intro m G ics x0 N a h hnodup k v hkv hkm
    rw [series_nth_order_eq] at h
    obtain ⟨a0, ha0, hiter⟩ := Option.bind_eq_some.mp h
    have h0 : nthIter m G x0 N a0 0 = some a0 := rfl
    have ht : a.take (k+1) = a0.take (k+1) :=
      nthIter_take_stable m G x0 N a0 _ a hiter 0 (Nat.zero_le _) a0 h0 (k+1)
        (by omega)
    have e1 := TPS.coeff_take a (k+1) k (by omega)
    have e2 := TPS.coeff_take a0 (k+1) k (by omega)
    rw [← e1, ht, e2]
    exact icsFold_coeff_mem ics _ a0 k v ha0 hnodup hkv
  · intro F G f0 g0 x0 N ab h
    exact sysIter_coeff_zero F G f0 g0 x0 N ab h

/-- Witness for `initial_value_law`: one instantiation per solver. -/
theorem initial_value_law_witness :
    TPS.coeff [5] 0 = 5 ∧ TPS.coeff [1, 0, 0] 0 = 1 ∧
      (TPS.coeff ([(0 : ℚ)], [(1 : ℚ)]).1 0 = 0 ∧
       TPS.coeff ([(0 : ℚ)], [(1 : ℚ)]).2 0 = 1) :=
  ⟨initial_value_law.1 (Expr.const 0) 5 0 0 [5] (by decide),
   initial_value_law.2.1 2 (Expr.const 0) [(0, 1), (1, 0)] 0 2 [1, 0, 0] (by decide)
     (by decide) 0 1 (by decide) (by decide),
   initial_value_law.2.2 (Expr.const 1) (Expr.const 1) 0 1 0 0 ([0], [1]) (by decide)⟩

theorem nthEnv_one (x0 : ℚ) (Y : TPS) : nthEnv 1 x0 Y = foEnv x0 Y := by
  unfold nthEnv foEnv
  congr 1
  funext j
  have hcond : ¬(1 ≤ j ∧ j + 2 ≤ 1) := by omega
  rw [if_neg hcond]

theorem qdiv_factorial_succ (c : ℚ) (s : ℕ) :
    qdiv c (qdiv (qofNat (Nat.factorial (s+1))) (qofNat (Nat.factorial s))) =
      qdiv c (qofNat (s+1)) := by
  have hfs : ((Nat.factorial s : ℚ)) ≠ 0 :=
    Nat.cast_ne_zero.mpr (Nat.factorial_ne_zero s)
  rw [qdiv_eq, qdiv_eq, qdiv_eq, qofNat_eq, qofNat_eq, qofNat_eq]
  rw [Nat.factorial_succ]
  push_cast
  rw [mul_div_assoc, div_self hfs, mul_one]

theorem nthIter_pad_m1 (F : Expr) (y0 x0 : ℚ) (N : ℕ) :
    ∀ s, s ≤ N →
      nthIter 1 F x0 N (y0 :: List.replicate N (0 : ℚ)) s =
        (foIter F y0 x0 s).map (fun c => c ++ List.replicate (N - s) (0 : ℚ)) := by
  intro s
  induction s with
  | zero =>
    intro _
    show some (y0 :: List.replicate N (0:ℚ)) =
      Option.map (fun c => c ++ List.replicate (N - 0) (0:ℚ)) (some [y0])
    simp
  | succ s ih =>
    intro hs
    rw [nthIter_succ, ih (by omega), foIter_succ]
    cases hfo : foIter F y0 x0 s with
    | none => rfl
    | some c =>
      have hclen : c.length = s + 1 := foIter_length F y0 x0 s c hfo
      simp only [Option.map_some', Option.some_bind]
      rw [nthStep_eq, foStep_eq]
      have hmin : min (s + 1 - 1) N + 1 = s + 1 := by omega
      rw [hmin]
      have htk : (c ++ List.replicate (N - s) (0:ℚ)).take (s+1) = c.take (s+1) :=
        List.take_append_of_le_length (by omega)
      rw [htk, nthEnv_one]
      cases hp : evalE (foEnv x0 (c.take (s+1))) F with
      | none => rfl
      | some p =>
        simp only [Option.map_some']
        congr 1
        rw [qdiv_factorial_succ]
        rw [List.set_append_right _ _ (by omega)]
        rw [hclen, Nat.sub_self]
        have hNs : N - s = (N - (s+1)) + 1 := by omega
        rw [hNs, List.replicate_succ]
        simp [List.append_assoc]

/-- C9: running `series_nth_order` with `m = 1` and the single initial
condition `{0: y0}` returns exactly the same series (or the same
failure) as `series_first_order` on the same inputs. -/
theorem nth_order_m1_refines_first_order (F : Expr) (y0 : ℚ) (N : ℕ) (x0 : ℚ) :
    series_nth_order 1 F [(0, y0)] N x0 = series_first_order F y0 N x0 := by
  have hini : icsInit N [(0, y0)] = some (y0 :: List.replicate N (0 : ℚ)) := by
    unfold icsInit
    rw [List.foldlM_cons]
    have h1 : icsSet (List.replicate (N+1) (0:ℚ)) (0, y0) =
        some (y0 :: List.replicate N (0:ℚ)) := by
      unfold icsSet
      rw [if_pos (by simp)]
      rw [List.replicate_succ]
      rfl
    rw [h1]
    show List.foldlM icsSet (y0 :: List.replicate N (0:ℚ)) [] = _
    rw [List.foldlM_nil]
    rfl
  rw [series_nth_order_eq, hini]
  show nthIter 1 F x0 N (y0 :: List.replicate N (0:ℚ)) (N + 1 - 1) = _
  have hN1 : N + 1 - 1 = N := by omega
  rw [hN1, nthIter_pad_m1 F y0 x0 N N (le_refl N)]
  cases hfo : foIter F y0 x0 N with
  | none =>
    show Option.map (fun c => c ++ List.replicate (N - N) (0:ℚ)) none =
      foIter F y0 x0 N
    rw [hfo]
    rfl
  | some c =>
    show some (c ++ List.replicate (N - N) (0:ℚ)) = series_first_order F y0 N x0
    rw [Nat.sub_self]
    show some (c ++ []) = foIter F y0 x0 N
    rw [List.append_nil, hfo]

theorem icsFold_pad (d : ℕ) : ∀ (ics : List (ℕ × ℚ)) (A : TPS),
    (∀ kv ∈ ics, kv.1 < A.length) →
    List.foldlM icsSet (A ++ List.replicate d (0:ℚ)) ics =
      (List.foldlM icsSet A ics).map (fun b => b ++ List.replicate d (0:ℚ)) := by
  intro ics
  induction ics with
  | nil => intro A _; rfl
  | cons kv rest ih =>
    intro A h
    have hk : kv.1 < A.length := h kv (List.mem_cons_self _ _)
    rw [List.foldlM_cons, List.foldlM_cons]
    have h1 : icsSet (A ++ List.replicate d (0:ℚ)) kv =
        some (A.set kv.1 kv.2 ++ List.replicate d (0:ℚ)) := by
      unfold icsSet
      rw [if_pos (by simp only [List.length_append, List.length_replicate]; omega)]
      rw [List.set_append_left _ _ hk]
    have h2 : icsSet A kv = some (A.set kv.1 kv.2) := by
      unfold icsSet
      rw [if_pos hk]
    rw [h1, h2]
    show List.foldlM icsSet (A.set kv.1 kv.2 ++ List.replicate d (0:ℚ)) rest =
      (List.foldlM icsSet (A.set kv.1 kv.2) rest).map
        (fun b => b ++ List.replicate d (0:ℚ))
    exact ih (A.set kv.1 kv.2)
      (fun p hp => by simpa using h p (List.mem_cons_of_mem _ hp))

theorem nthIter_pad (m : ℕ) (G : Expr) (x0 : ℚ) (No Nn d : ℕ) (hm : 1 ≤ m)
    (hle : No ≤ Nn) (b0 : TPS) (hb0 : b0.length = No + 1) :
    ∀ s, s ≤ No + 1 - m →
      nthIter m G x0 Nn (b0 ++ List.replicate d (0:ℚ)) s =
        (nthIter m G x0 No b0 s).map (fun b => b ++ List.replicate d (0:ℚ)) := by
  intro s
  induction s with
  | zero => intro _; rfl
  | succ s ih =>
    intro hs
    rw [nthIter_succ, nthIter_succ, ih (by omega)]
    cases hit : nthIter m G x0 No b0 s with
    | none => rfl
    | some c =>
      have hclen : c.length = No + 1 := by
        rw [nthIter_length m G x0 No b0 s c hit, hb0]
      simp only [Option.map_some', Option.some_bind]
      rw [nthStep_eq, nthStep_eq]
      have hsm : s + m ≤ No := by omega
      have hmin1 : min (s + m - 1) Nn + 1 = s + m := by omega
      have hmin2 : min (s + m - 1) No + 1 = s + m := by omega
      rw [hmin1, hmin2]
      rw [List.take_append_of_le_length (by omega)]
      cases hp : evalE (nthEnv m x0 (c.take (s + m))) G with
      | none => rfl
      | some p =>
        simp only [Option.map_some']
        congr 1
        rw [List.set_append_left _ _ (by omega)]

theorem series_nth_causal (m : ℕ) (G : Expr) (ics : List (ℕ × ℚ)) (x0 : ℚ)
    (No Nn : ℕ) (hm : 1 ≤ m) (hle : No ≤ Nn) (a b : TPS)
    (ha : series_nth_order m G ics No x0 = some a)
    (hb : series_nth_order m G ics Nn x0 = some b) :
    a = b.take (No + 1) := by
  rw [series_nth_order_eq] at ha hb
  obtain ⟨a0, ha0, hiterA⟩ := Option.bind_eq_some.mp ha
  obtain ⟨b0, hb0, hiterB⟩ := Option.bind_eq_some.mp hb
  have ha0len : a0.length = No + 1 := icsInit_length No ics a0 ha0
  have halen : a.length = No + 1 := by
    rw [nthIter_length m G x0 No a0 _ a hiterA, ha0len]
  have hrepl : List.replicate (Nn+1) (0:ℚ) =
      List.replicate (No+1) (0:ℚ) ++ List.replicate (Nn - No) (0:ℚ) := by
    rw [← List.replicate_add]
    congr 1
    omega
  have hpadinit : icsInit Nn ics =
      (icsInit No ics).map (fun v => v ++ List.replicate (Nn - No) (0:ℚ)) := by
    unfold icsInit
    rw [hrepl]
    exact icsFold_pad (Nn - No) ics _ (fun kv hkv => by
      simpa using icsFold_keys ics _ a0 ha0 kv hkv)
  rw [hpadinit, ha0, Option.map_some'] at hb0
  have hb0' : b0 = a0 ++ List.replicate (Nn - No) (0:ℚ) := (Option.some_inj.mp hb0).symm
  subst hb0'
  have hS : No + 1 - m ≤ Nn + 1 - m := by omega
  obtain ⟨cmid, hcmid⟩ := nthIter_mono m G x0 Nn _ _ b hiterB (No + 1 - m) hS
  have hpad := nthIter_pad m G x0 No Nn (Nn - No) hm hle a0 ha0len (No + 1 - m)
    (le_refl _)
  rw [hcmid, hiterA, Option.map_some'] at hpad
  have hcm : cmid = a ++ List.replicate (Nn - No) (0:ℚ) := Option.some_inj.mp hpad
  subst hcm
  have hstable : b.take (No + 1) =
      (a ++ List.replicate (Nn - No) (0:ℚ)).take (No + 1) :=
    nthIter_take_stable m G x0 Nn _ _ b hiterB (No + 1 - m) hS _ hcmid (No + 1)
      (by omega)
  rw [hstable, List.take_append_of_le_length (by omega)]
  exact (TPS.take_all_of_length a (No+1) halen).symm

/-- C5: causality law — for each of the three solvers, every
coefficient of degree `k ≤ N'` of the result computed at truncation
order `N' < N` equals the coefficient of degree `k` of the result
computed at order `N`; no coefficient depends on the truncation
order. -/
theorem causality_law :
    (∀ F y0 x0 Np N a b, Np < N →
      series_first_order F y0 Np x0 = some a →
      series_first_order F y0 N x0 = some b →
      ∀ k, k ≤ Np → TPS.coeff a k = TPS.coeff b k) ∧
    (∀ m G ics x0 Np N a b, 1 ≤ m → Np < N →
      series_nth_order m G ics Np x0 = some a →
      series_nth_order m G ics N x0 = some b →
      ∀ k, k ≤ Np → TPS.coeff a k = TPS.coeff b k) ∧
    (∀ F G f0 g0 x0 Np N ab cd, Np < N →
      series_system_2x2 F G f0 g0 Np x0 = some ab →
      series_system_2x2 F G f0 g0 N x0 = some cd →
      ∀ k, k ≤ Np →
        TPS.coeff ab.1 k = TPS.coeff cd.1 k ∧
        TPS.coeff ab.2 k = TPS.coeff cd.2 k) := by
  refine ⟨?_, ?_, ?_⟩
  · intro F y0 x0 Np N a b hlt ha hb k hk
    obtain ⟨d, rfl⟩ : ∃ d, N = Np + d := ⟨N - Np, by omega⟩
    have hpre := foIter_take F y0 x0 d Np b hb
    have ha' : foIter F y0 x0 Np = some a := ha
    rw [ha'] at hpre
    have haeq : a = b.take (Np + 1) := Option.some_inj.mp hpre
    rw [haeq]
    exact TPS.coeff_take b (Np+1) k (by omega)
  · intro m G ics x0 Np N a b hm hlt ha hb k hk
    have haeq : a = b.take (Np + 1) :=
      series_nth_causal m G ics x0 Np N hm (by omega) a b ha hb
    rw [haeq]
    exact TPS.coeff_take b (Np+1) k (by omega)
  · intro F G f0 g0 x0 Np N ab cd hlt hab hcd k hk
    obtain ⟨d, rfl⟩ : ∃ d, N = Np + d := ⟨N - Np, by omega⟩
    have hpre := sysIter_take F G f0 g0 x0 d Np cd hcd
    have hab' : sysIter F G f0 g0 x0 Np = some ab := hab
    rw [hab'] at hpre
    have habeq : ab = (cd.1.take (Np + 1), cd.2.take (Np + 1)) :=
      Option.some_inj.mp hpre
    constructor
    · rw [habeq]
      exact TPS.coeff_take cd.1 (Np+1) k (by omega)
    · rw [habeq]
      exact TPS.coeff_take cd.2 (Np+1) k (by omega)

/-- Witness for `causality_law`: one instantiation per solver, each at
a pair of orders `N' < N`. -/
theorem causality_law_witness :
    TPS.coeff [1, 1] 1 = TPS.coeff [1, 1, mkRat 1 2] 1 ∧
    TPS.coeff [1, 0, mkRat (-1) 2] 2 = TPS.coeff [1, 0, mkRat (-1) 2, 0] 2 ∧
    (TPS.coeff ([(0:ℚ)], [(0:ℚ)]).1 0 = TPS.coeff ([0, 1], [(0:ℚ), 0]).1 0 ∧
     TPS.coeff ([(0:ℚ)], [(0:ℚ)]).2 0 = TPS.coeff ([0, 1], [(0:ℚ), 0]).2 0) :=
  ⟨causality_law.1 Expr.yApp 1 0 1 2 [1, 1] [1, 1, mkRat 1 2] (by decide) (by decide)
     (by decide) 1 (by decide),
   causality_law.2.1 2 (Expr.neg Expr.yApp) [(0, 1), (1, 0)] 0 2 3
     [1, 0, mkRat (-1) 2] [1, 0, mkRat (-1) 2, 0] (by decide) (by decide) (by decide)
     (by decide) 2 (by decide),
   causality_law.2.2 (Expr.const 1) (Expr.const 0) 0 0 0 0 1 ([0], [0]) ([0, 1], [0, 0])
     (by decide) (by decide) (by decide) 0 (by decide)⟩
